import Mathlib

/-!
Verification of the quantitative-analysis core of the `algo` repository.

The Python sources under `api/analyzers/` are shallowly embedded here:
prices and spreads become `List ℚ`, pandas series with missing leading
entries become association lists `List (ℕ × ℚ)` of (position, value)
pairs, Python exceptions become `Except String`, and the numerical
primitives `sqrt`/`log` that the estimators delegate to floating point
are abstracted as function parameters where the claims do not depend on
their values.
-/

namespace Algo

/-- Sum of pairwise products, mirroring `np.dot` on equal-length vectors. -/
def dotProd (a b : List ℚ) : ℚ :=
  (List.zipWith (· * ·) a b).sum

/-- Arithmetic mean of a list, `sum / len` (0 on the empty list, matching
the guarded uses in the source). -/
def mean (l : List ℚ) : ℚ :=
  l.sum / l.length

/-- Sample variance with `ddof = 1`, as used by `pandas.rolling(...).std()`
before the square root is taken. -/
def sampleVar (l : List ℚ) : ℚ :=
  (l.map (fun x => (x - mean l) ^ 2)).sum / ((l.length : ℚ) - 1)

/-- Cumulative sums with running accumulator, mirroring `Series.cumsum()`. -/
def cumsumFrom (acc : ℚ) : List ℚ → List ℚ
  | [] => []
  | x :: xs => (acc + x) :: cumsumFrom (acc + x) xs

/-- Cumulative sums of a list, mirroring `Series.cumsum()`. -/
def cumsum (l : List ℚ) : List ℚ :=
  cumsumFrom 0 l

/-- Maximum of a list of rationals (`Series.max()`), junk 0 on empty. -/
def listMax (l : List ℚ) : ℚ :=
  l.foldl max (l.headD 0)

/-- Minimum of a list of rationals (`Series.min()`), junk 0 on empty. -/
def listMin (l : List ℚ) : ℚ :=
  l.foldl min (l.headD 0)

/-- The trailing windows of length `lag`, mirroring `Series.rolling(lag)`
after `dropna()`: window `j` covers positions `j .. j+lag-1`. -/
def windowsOf (s : List ℚ) (lag : ℕ) : List (List ℚ) :=
  (List.range (s.length + 1 - lag)).map fun j => (s.drop j).take lag

/-- Round half to even on ℚ, the tie rule of Python `round` and `np.round`. -/
def roundHE (x : ℚ) : ℤ :=
  if x - ⌊x⌋ < 1 / 2 then ⌊x⌋
  else if 1 / 2 < x - ⌊x⌋ then ⌊x⌋ + 1
  else if 2 ∣ ⌊x⌋ then ⌊x⌋ else ⌊x⌋ + 1

/-- Python `round(x, nd)` on exact rationals. -/
def pyRound (nd : ℕ) (x : ℚ) : ℚ :=
  (roundHE (x * 10 ^ nd) : ℚ) / 10 ^ nd

/-- Python list indexing (negative indices wrap; out of bounds raises). -/
def pyIdx (l : List ℚ) (i : ℤ) : Except String ℚ :=
  if 0 ≤ i ∧ i < l.length then .ok (l.getD i.toNat 0)
  else if -(l.length : ℤ) ≤ i ∧ i < 0 then .ok (l.getD (l.length - (-i).toNat) 0)
  else .error "IndexError"

/-- Python float division: raises `ZeroDivisionError` on zero denominator. -/
def pyDiv (a b : ℚ) : Except String ℚ :=
  if b = 0 then .error "ZeroDivisionError" else .ok (a / b)

/-- Does `pat` occur at the head of `s`? Helper for the substring test. -/
def headMatch : List Char → List Char → Bool
  | [], _ => true
  | _ :: _, [] => false
  | p :: ps, c :: cs => p == c && headMatch ps cs

/-- Substring occurrence on character lists, mirroring Python `in`. -/
def hasSub (pat : List Char) : List Char → Bool
  | [] => headMatch pat []
  | c :: cs => headMatch pat (c :: cs) || hasSub pat cs

/-- Python `pat in s` on strings. -/
def pyIn (pat s : String) : Bool :=
  hasSub pat.toList s.toList

end Algo

namespace Algo

/-! ### `signal_processing.fractional_diff` -/

/-- The weight recursion of `fractional_diff`: `w 0 = 1`,
`w (k+1) = -(w k) * (d - k) / (k + 1)` (the source's
`weight = -weights[-1] * (d - k + 1) / k` re-indexed). -/
def wseq (d : ℚ) : ℕ → ℚ
  | 0 => 1
  | k + 1 => -(wseq d k) * (d - (k : ℚ)) / ((k : ℚ) + 1)

/-- An upper bound on the index at which `|wseq d k|` first falls to the
threshold, computed from the values themselves so that the truncation
loop can be run with explicit fuel. -/
def ffdBound (d t : ℚ) : ℕ :=
  ⌈d⌉₊ + 1 + ⌈(|wseq d ⌈d⌉₊| * ⌈d⌉₊) / t⌉₊

/-- Fuel-driven scan for the first index `k` with `|wseq d k| ≤ t`,
mirroring the source's `while abs(weights[-1]) > threshold` loop. -/
def stopAux (d t : ℚ) : ℕ → ℕ → ℕ
  | k, 0 => k
  | k, fuel + 1 => if |wseq d k| ≤ t then k else stopAux d t (k + 1) fuel

/-- Index of the last weight kept by the truncation loop: the first `k`
with `|wseq d k| ≤ t`. -/
def ffdStop (d t : ℚ) : ℕ :=
  stopAux d t 0 (ffdBound d t + 1)

/-- The weight vector built by `fractional_diff` before reversal:
`[w 0, ..., w m]` where `m` is the first index with `|w m| ≤ t`.  The
loop tests the previously appended weight, so the terminal
below-threshold weight is retained. -/
def ffdWeights (d t : ℚ) : List ℚ :=
  (List.range (ffdStop d t + 1)).map (wseq d)

/-- The application loop of `fractional_diff` for a given weight list:
for each position `iloc` in `width .. len-1` the output value is the dot
product of the reversed weights with `series[iloc-width : iloc]`
(the `width` values strictly before `iloc`). -/
def fdiffWith (w : List ℚ) (s : List ℚ) : List (ℕ × ℚ) :=
  (List.range s.length).filterMap fun i =>
    if w.length ≤ i then
      some (i, dotProd w.reverse ((s.drop (i - w.length)).take w.length))
    else none

/-- The function `fractional_diff(series, d, threshold)` from
`api/analyzers/signal_processing.py`, with the result's surviving
(position, value) pairs after `dropna()`. -/
def fractional_diff (s : List ℚ) (d t : ℚ) : List (ℕ × ℚ) :=
  fdiffWith (ffdWeights d t) s

/-- Modelled from the spec: the variant of the application loop in which
the trailing window ends at and includes position `i`
(`series[i-width+1 : i+1]`), as §4.1 of the spec words it.  Used only to
compare the spec's sentence with the code's actual window. -/
def fdiffWithSpec (w : List ℚ) (s : List ℚ) : List (ℕ × ℚ) :=
  (List.range s.length).filterMap fun i =>
    if w.length ≤ i then
      some (i, dotProd w.reverse ((s.drop (i + 1 - w.length)).take w.length))
    else none

/-- Modelled from the spec: `fractional_diff` with the spec's
"window ending at `i`" reading. -/
def fractionalDiffSpec (s : List ℚ) (d t : ℚ) : List (ℕ × ℚ) :=
  fdiffWithSpec (ffdWeights d t) s

/-! ### `signal_processing.find_min_ffd` -/

/-- Does candidate index `k` (representing `d = k/10`) qualify in
`find_min_ffd`: at least 10 valid output points and oracle p-value below
0.05. -/
def ffdQualifies (s : List ℚ) (t : ℚ) (oracle : List (ℕ × ℚ) → ℚ) (k : ℕ) : Bool :=
  let f := fractional_diff s ((k : ℚ) / 10) t
  decide (10 ≤ f.length) && decide (oracle f < 1 / 20)

/-- First element of the list satisfying `p`, scanning left to right —
the shape of the `for d in np.arange(...)` loop with early `return`. -/
def firstQualifying (p : ℕ → Bool) : List ℕ → Option ℕ
  | [] => none
  | k :: ks => if p k then some k else firstQualifying p ks

/-- The function `find_min_ffd(series, max_d, threshold)` from
`api/analyzers/signal_processing.py`, with the ADF test abstracted as a
p-value oracle on the differenced series.  The grid is
`np.arange(0.0, max_d, 0.1)`, i.e. `k/10` for `k < ⌈10·max_d⌉`. -/
def find_min_ffd (s : List ℚ) (maxD t : ℚ) (oracle : List (ℕ × ℚ) → ℚ) : ℚ :=
  match firstQualifying (ffdQualifies s t oracle) (List.range (⌈maxD * 10⌉.toNat)) with
  | some k => (k : ℚ) / 10
  | none => maxD

/-! ### `signal_processing.calculate_hurst_exponent`

The floating-point primitives `np.std`'s square root and `np.log` are
abstracted as parameters `sq` and `lg`; the claims treated here depend
only on `sq 0 = 0` (the square root of a zero variance is zero). -/

/-- The `std.mean()` of one lag of `calculate_hurst_exponent`: the mean of
the rolling standard deviations (square root abstracted as `sq`). -/
def hurstMeanStd (sq : ℚ → ℚ) (s : List ℚ) (lag : ℕ) : ℚ :=
  mean ((windowsOf s lag).map fun w => sq (sampleVar w))

/-- The range `R` of the cumulative deviations from the rolling mean for
one lag (`cumulative_dev.max() - cumulative_dev.min()`). -/
def hurstR (s : List ℚ) (lag : ℕ) : ℚ :=
  listMax (cumsum (List.zipWith (· - ·) (s.drop (lag - 1)) ((windowsOf s lag).map mean))) -
    listMin (cumsum (List.zipWith (· - ·) (s.drop (lag - 1)) ((windowsOf s lag).map mean)))

/-- The rescaled-range statistic for one lag:
`RS = R / std.mean() if std.mean() > 0 else 0`. -/
def hurstRS (sq : ℚ → ℚ) (s : List ℚ) (lag : ℕ) : ℚ :=
  if 0 < hurstMeanStd sq s lag then hurstR s lag / hurstMeanStd sq s lag else 0

/-- The list `tau` of rescaled-range statistics accumulated by
`calculate_hurst_exponent`, one entry per lag in `range(2, max_lag)`
whose rolling-std list is non-empty (lags larger than the series are
skipped by `continue`). -/
def hurstTau (sq : ℚ → ℚ) (s : List ℚ) (maxLag : ℕ) : List ℚ :=
  (List.range' 2 (maxLag - 2)).filterMap fun lag =>
    if s.length < lag then none
    else some (hurstRS sq s lag)

/-- Slope of the degree-1 least-squares fit, as `np.polyfit(xs, ys, 1)`
computes it; a rank-deficient system yields junk (numpy produces
non-finite coefficients rather than raising), modelled as 0. -/
def polyfitSlope (xs ys : List ℚ) : ℚ :=
  let n : ℚ := xs.length
  let sx := xs.sum
  let sy := ys.sum
  let sxx := (xs.map fun x => x * x).sum
  let sxy := (List.zipWith (· * ·) xs ys).sum
  let den := n * sxx - sx * sx
  if den = 0 then 0 else (n * sxy - sx * sy) / den

/-- The function `calculate_hurst_exponent(series, max_lag)` from
`api/analyzers/signal_processing.py`: fit `lg tau` against `lg lag`
over the first `len(tau)` lags; return the 0.5 random-walk default
when no lag produced a statistic. -/
def calculate_hurst_exponent (sq lg : ℚ → ℚ) (s : List ℚ) (maxLag : ℕ) : ℚ :=
  let tau := hurstTau sq s maxLag
  if tau = [] then 1 / 2
  else
    polyfitSlope (((List.range' 2 (maxLag - 2)).take tau.length).map fun l => lg (l : ℚ))
      (tau.map lg)

end Algo

namespace Algo

/-! ### `cointegration.calculate_half_life` and `calculate_z_score` -/

/-- The centered `Σ (x-x̄)²`-style denominator `n·Σx² - (Σx)²` of the OLS
slope in `calculate_half_life`, over the lagged spread values. -/
def sxxOf (s : List ℚ) : ℚ :=
  let x := s.dropLast
  (x.length : ℚ) * (x.map fun v => v * v).sum - x.sum * x.sum

/-- The OLS decay coefficient θ of `calculate_half_life`: slope of the
regression (with intercept) of `spread.diff()` on `spread.shift(1)`.
When the design is degenerate (`sxx = 0`) the minimum-norm least-squares
solution used by sklearn yields slope 0. -/
def olsTheta (s : List ℚ) : ℚ :=
  let x := s.dropLast
  let y := List.zipWith (fun a b => a - b) (s.drop 1) s
  let n : ℚ := x.length
  let sxy := (List.zipWith (· * ·) x y).sum
  if sxxOf s = 0 then 0 else (n * sxy - x.sum * y.sum) / sxxOf s

/-- Result of `calculate_half_life`: a finite number of periods or the
`float('inf')` marker for a non-mean-reverting spread. -/
inductive HalfLife where
  | val (x : ℝ)
  | inf
  deriving Inhabited

/-- The function `calculate_half_life(spread)` from `api/analyzers/cointegration.py`.
A spread with fewer than two observations leaves the regression with
zero samples and sklearn's `fit` raises `ValueError`; otherwise
`-ln 2 / θ` when `θ < 0`, and `+∞` when `θ ≥ 0`. -/
noncomputable def calculate_half_life (s : List ℚ) : Except String HalfLife :=
  if s.length ≤ 1 then .error "ValueError"
  else if olsTheta s < 0 then .ok (.val (-Real.log 2 / (olsTheta s : ℝ)))
  else .ok .inf

/-- The function `calculate_z_score(spread, window)` from
`api/analyzers/cointegration.py`: position `i` carries
`(spread[i] - mean)/std` over the trailing window, `none` standing for
the NaN produced during the warm-up window or by a zero rolling
standard deviation. -/
def calculate_z_score (sq : ℚ → ℚ) (spread : List ℚ) (window : ℕ) : List (Option ℚ) :=
  (List.range spread.length).map fun i =>
    if i + 1 < window then none
    else
      let w := (spread.drop (i + 1 - window)).take window
      let sd := sq (sampleVar w)
      if sd = 0 then none else some ((spread.getD i 0 - mean w) / sd)

end Algo

namespace Algo

/-! ### `recommendation.calculate_trading_signal` -/

/-- The three recommendation categories. -/
inductive Rec where
  | BUY
  | SELL
  | HOLD
  deriving DecidableEq

/-- One entry of the human-readable reasoning list, keeping the numeric
content of the source's f-strings without modelling decimal formatting. -/
inductive ReasonPart where
  | meanReverting (h : ℚ)
  | trending (h : ℚ)
  | regimeDesc (s : String)
  | highVol (v : ℚ)
  | lowVol (v : ℚ)
  | strongSharpe (v : ℚ)
  | weakSharpe (v : ℚ)
  deriving DecidableEq

/-- The `reasoning` field: the literal insufficient-data string, the
"Based on technical analysis" fallback, or the joined factor parts. -/
inductive Reasoning where
  | insufficientData
  | basedOnTechnical
  | parts (l : List ReasonPart)
  deriving DecidableEq

/-- The dictionary returned by `calculate_trading_signal`. -/
structure TradingSignal where
  recommendation : Rec
  confidence : ℚ
  signal_strength : ℚ
  reasoning : Reasoning
  deriving DecidableEq

/-- The `analysis['regime']` sub-dictionary. -/
structure RegimeInput where
  current_regime : ℤ
  regime_descriptions : List (ℤ × String)
  regime_probabilities : Option (List ℚ)
  deriving DecidableEq

/-- The `analysis['volatility']` sub-dictionary. -/
structure VolatilityInput where
  annualized_volatility : Option ℚ
  deriving DecidableEq

/-- The `analysis['cointegration']` sub-dictionary. -/
structure CointInput where
  is_stationary : Option Bool
  deriving DecidableEq

/-- The `analysis` dictionary as consumed by `calculate_trading_signal`:
a `none` field is a missing key (or a Python-falsy empty sub-dict). -/
structure AnalysisInput where
  hurst_exponent : Option ℚ
  regime : Option RegimeInput
  volatility : Option VolatilityInput
  price_change_pct : Option ℚ
  sharpe : Option ℚ
  cointegration : Option CointInput
  deriving DecidableEq

/-- Factor 1 signal (Hurst, source lines 33-52): mean-reversion play for
`H < 0.45` on the 20-day return, momentum-follow for `H > 0.55`,
neutral otherwise.  `iloc[-1]`/`iloc[-20]` can raise `IndexError` and
the division can raise `ZeroDivisionError`. -/
def hurstSignal (h : ℚ) (ps : List ℚ) : Except String ℚ :=
  if h < 9 / 20 then do
    let a ← pyIdx ps (-1)
    let b ← pyIdx ps (-20)
    let q ← pyDiv a b
    let recentReturn := q - 1
    pure (if recentReturn > 1 / 20 then -1 else if recentReturn < -(1 / 20) then 1 else 0)
  else if h > 11 / 20 then do
    let a ← pyIdx ps (-1)
    let b ← pyIdx ps (-20)
    let q ← pyDiv a b
    let momentum := q - 1
    pure (if momentum > 0 then (1 : ℚ) else -1)
  else pure 0

/-- Factor 2 signal (regime, source lines 56-67): ±1 when the textual
regime description contains "Bull"/"Bear" with posterior above 0.6.
The posterior lookup `regime_probabilities[current_regime]` uses Python
list indexing and can raise `IndexError`. -/
def regimeSignal (r : RegimeInput) : Except String ℚ :=
  let desc := (r.regime_descriptions.lookup r.current_regime).getD ""
  match pyIdx (r.regime_probabilities.getD [0, 0, 0]) r.current_regime with
  | .error e => .error e
  | .ok prob =>
    .ok (if pyIn "Bull" desc ∧ prob > 3 / 5 then 1
      else if pyIn "Bear" desc ∧ prob > 3 / 5 then -1 else 0)

/-- Factor 3 signal (volatility, source lines 71-80). -/
def volSignal (v : VolatilityInput) : ℚ :=
  let cv := v.annualized_volatility.getD 0
  if cv > 2 / 5 then -(1 / 2) else if cv < 3 / 20 then 1 / 2 else 0

/-- Factor 4 signal (momentum/Sharpe, source lines 84-98).  This factor
is computed from defaulted lookups and appended unconditionally. -/
def momentumSignal (pc sharpe : ℚ) : ℚ :=
  if sharpe > 3 / 2 then (if pc > 0 then 1 else 1 / 2)
  else if sharpe < 1 / 2 then (if pc < 0 then -1 else -(1 / 2))
  else 0

/-- Factor 5 signal (stationarity, source lines 102-120). -/
def statSignal (c : CointInput) (pc : ℚ) : ℚ :=
  if c.is_stationary.getD false = false then
    (if pc > 2 then 1 else if pc < -2 then -1 else 0)
  else
    (if pc > 3 then -1 else if pc < -3 then 1 else 0)

/-- Hurst (signal, weight) contribution: empty when the factor is absent. -/
def hurstFactor (a : AnalysisInput) (ps : List ℚ) : Except String (List (ℚ × ℚ)) :=
  match a.hurst_exponent with
  | none => .ok []
  | some h =>
    match hurstSignal h ps with
    | .error e => .error e
    | .ok sg => .ok [(sg, 3 / 10)]

/-- Regime (signal, weight) contribution: empty when the factor is absent. -/
def regimeFactor (a : AnalysisInput) : Except String (List (ℚ × ℚ)) :=
  match a.regime with
  | none => .ok []
  | some r =>
    match regimeSignal r with
    | .error e => .error e
    | .ok sg => .ok [(sg, 1 / 4)]

/-- Volatility (signal, weight) contribution. -/
def volFactor (a : AnalysisInput) : List (ℚ × ℚ) :=
  match a.volatility with
  | none => []
  | some v => [(volSignal v, 3 / 20)]

/-- Momentum (signal, weight) contribution — always present, computed
from `analysis.get('price_change_pct', 0)` and the defaulted Sharpe. -/
def momFactor (a : AnalysisInput) : List (ℚ × ℚ) :=
  [(momentumSignal (a.price_change_pct.getD 0) (a.sharpe.getD 0), 1 / 5)]

/-- Stationarity (signal, weight) contribution. -/
def statFactor (a : AnalysisInput) : List (ℚ × ℚ) :=
  match a.cointegration with
  | none => []
  | some c => [(statSignal c (a.price_change_pct.getD 0), 1 / 10)]

/-- The `signals`/`weights` accumulation of `calculate_trading_signal`
(source lines 28-121), in source order, with factor errors propagating
in evaluation order. -/
def gatherFactors (a : AnalysisInput) (ps : List ℚ) : Except String (List (ℚ × ℚ)) :=
  match hurstFactor a ps with
  | .error e => .error e
  | .ok l1 =>
    match regimeFactor a with
    | .error e => .error e
    | .ok l2 => .ok (l1 ++ l2 ++ volFactor a ++ momFactor a ++ statFactor a)

/-- The normalisation `weights_array / weights_array.sum()` (source line 133). -/
def normalizeW (w : List ℚ) : List ℚ :=
  w.map (· / w.sum)

/-- The average `np.average(signals, weights)` = `Σ sᵢwᵢ / Σ wᵢ`. -/
def npAverage (s w : List ℚ) : ℚ :=
  dotProd s w / w.sum

/-- The weighted signal of source lines 132-135: normalize the weights,
then take the numpy weighted average. -/
def weightedSignalOf (l : List (ℚ × ℚ)) : ℚ :=
  npAverage (l.map Prod.fst) (normalizeW (l.map Prod.snd))

/-- The decision block of source lines 138-146, before output rounding:
category and raw confidence from the weighted signal. -/
def decideSignal (S : ℚ) : Rec × ℚ :=
  if S > 3 / 10 then (.BUY, min (|S| * 100) 100)
  else if S < -(3 / 10) then (.SELL, min (|S| * 100) 100)
  else (.HOLD, 100 - |S| * 100)

/-- The reasoning assembly of source lines 149-173. -/
def reasoningOf (a : AnalysisInput) : Reasoning :=
  let l :=
    (match a.hurst_exponent with
      | none => []
      | some h =>
        if h < 9 / 20 then [ReasonPart.meanReverting h]
        else if h > 11 / 20 then [ReasonPart.trending h]
        else []) ++
    (match a.regime with
      | none => []
      | some r => [ReasonPart.regimeDesc ((r.regime_descriptions.lookup r.current_regime).getD "")]) ++
    (match a.volatility with
      | none => []
      | some v =>
        let vp := v.annualized_volatility.getD 0 * 100
        if vp > 40 then [ReasonPart.highVol vp]
        else if vp < 15 then [ReasonPart.lowVol vp]
        else []) ++
    (let sh := a.sharpe.getD 0
     if sh > 3 / 2 then [ReasonPart.strongSharpe sh]
     else if sh < 1 / 2 then [ReasonPart.weakSharpe sh]
     else [])
  if l = [] then .basedOnTechnical else .parts l

/-- The function `calculate_trading_signal(analysis, price_series, returns)` from
`api/analyzers/recommendation.py` (the `returns` argument is unused by
the source).  Confidence is rounded to 1 decimal and the signal
strength to 3, as in the returned dictionary. -/
def calculate_trading_signal (a : AnalysisInput) (ps : List ℚ) : Except String TradingSignal :=
  match gatherFactors a ps with
  | .error e => .error e
  | .ok l =>
    if l = [] then
      .ok ⟨.HOLD, 0, 0, .insufficientData⟩
    else
      let S := weightedSignalOf l
      let rc := decideSignal S
      .ok ⟨rc.1, pyRound 1 rc.2, pyRound 3 S, reasoningOf a⟩

/-- The weight multiset the claim C1 predicts for the present factors:
30/25/15/10 joined only when present, 20 (momentum) always. -/
def presentWeights (a : AnalysisInput) : List ℚ :=
  (if a.hurst_exponent.isSome then [3 / 10] else []) ++
    (if a.regime.isSome then [1 / 4] else []) ++
    (if a.volatility.isSome then [3 / 20] else []) ++
    [1 / 5] ++
    (if a.cointegration.isSome then [1 / 10] else [])

/-- The all-absent analysis input (every key missing). -/
def emptyAnalysis : AnalysisInput :=
  ⟨none, none, none, none, none, none⟩

/-- A regime sub-dictionary whose `current_regime` is out of bounds for
the defaulted `regime_probabilities` list `[0, 0, 0]`. -/
def badRegimeAnalysis : AnalysisInput :=
  ⟨none, some ⟨5, [], none⟩, none, none, none, none⟩

/-- An input with only the Hurst factor present, at the random-walk
value `H = 1/2`. -/
def hurstMidAnalysis : AnalysisInput :=
  ⟨some (1 / 2), none, none, none, none, none⟩

/-- An input with only the Hurst factor present, at `H = 0.48`. -/
def hurstMid48Analysis : AnalysisInput :=
  ⟨some (12 / 25), none, none, none, none, none⟩

/-- An input with the volatility and stationarity factors present and
the rest absent. -/
def mixedAnalysis : AnalysisInput :=
  ⟨none, none, some ⟨some (1 / 2)⟩, none, none, some ⟨some true⟩⟩

end Algo

namespace Algo

/-! ## Basic lemmas about the weight recursion -/

theorem wseq_succ (d : ℚ) (k : ℕ) :
    wseq d (k + 1) = -(wseq d k) * (d - (k : ℚ)) / ((k : ℚ) + 1) := rfl

theorem abs_wseq_succ (d : ℚ) (k : ℕ) :
    |wseq d (k + 1)| = |wseq d k| * |d - (k : ℚ)| / ((k : ℚ) + 1) := by
  have hk : (0 : ℚ) < (k : ℚ) + 1 := by positivity
  rw [wseq_succ, abs_div, abs_mul, abs_neg, abs_of_pos hk]

theorem wseq_decay (d : ℚ) (hd : 0 ≤ d) (k : ℕ) (hk : d ≤ (k : ℚ)) :
    |wseq d (k + 1)| * ((k : ℚ) + 1) ≤ |wseq d k| * (k : ℚ) := by
  have hk1 : (0 : ℚ) < (k : ℚ) + 1 := by positivity
  rw [abs_wseq_succ, div_mul_cancel₀ _ (ne_of_gt hk1)]
  have habs : |d - (k : ℚ)| = (k : ℚ) - d := by
    rw [abs_of_nonpos (by linarith)]; ring
  rw [habs]
  have := abs_nonneg (wseq d k)
  nlinarith

theorem wseq_anti (d : ℚ) (hd : 0 ≤ d) :
    ∀ m, ⌈d⌉₊ ≤ m → |wseq d m| * (m : ℚ) ≤ |wseq d ⌈d⌉₊| * (⌈d⌉₊ : ℚ) := by
  intro m hm
  induction m, hm using Nat.le_induction with
  | base => exact le_refl _
  | succ n hn ih =>
    have hdn : d ≤ (n : ℚ) := le_trans (Nat.le_ceil d) (by exact_mod_cast hn)
    have hcast : ((n + 1 : ℕ) : ℚ) = (n : ℚ) + 1 := by push_cast; ring
    rw [hcast]
    calc |wseq d (n + 1)| * ((n : ℚ) + 1) ≤ |wseq d n| * (n : ℚ) := wseq_decay d hd n hdn
      _ ≤ _ := ih

theorem wseq_eventually_small (d t : ℚ) (hd : 0 ≤ d) (ht : 0 < t) :
    |wseq d (ffdBound d t)| ≤ t := by
  have hKN : ⌈d⌉₊ ≤ ffdBound d t := by unfold ffdBound; omega
  have hN1 : 1 ≤ ffdBound d t := by unfold ffdBound; omega
  have hN0 : (0 : ℚ) < (ffdBound d t : ℚ) := by exact_mod_cast hN1
  have h1 : |wseq d (ffdBound d t)| * (ffdBound d t : ℚ) ≤ |wseq d ⌈d⌉₊| * (⌈d⌉₊ : ℚ) :=
    wseq_anti d hd _ hKN
  have h2 : |wseq d ⌈d⌉₊| * (⌈d⌉₊ : ℚ) / t ≤ (ffdBound d t : ℚ) := by
    refine le_trans (Nat.le_ceil _) ?_
    have h4 : ⌈|wseq d ⌈d⌉₊| * (⌈d⌉₊ : ℚ) / t⌉₊ ≤ ffdBound d t := by unfold ffdBound; omega
    exact_mod_cast h4
  have h3 : |wseq d ⌈d⌉₊| * (⌈d⌉₊ : ℚ) ≤ (ffdBound d t : ℚ) * t := by
    rw [div_le_iff₀ ht] at h2; linarith
  nlinarith [abs_nonneg (wseq d (ffdBound d t))]

theorem stopAux_spec (d t : ℚ) :
    ∀ fuel k, (∀ j < k, t < |wseq d j|) →
      (∃ j, k ≤ j ∧ j < k + fuel ∧ |wseq d j| ≤ t) →
      |wseq d (stopAux d t k fuel)| ≤ t ∧
        ∀ j < stopAux d t k fuel, t < |wseq d j| := by
  intro fuel
  induction fuel with
  | zero =>
    intro k _ hex
    obtain ⟨j, hj1, hj2, _⟩ := hex
    omega
  | succ n ih =>
    intro k hprev hex
    by_cases hk : |wseq d k| ≤ t
    · simp only [stopAux, if_pos hk]
      exact ⟨hk, hprev⟩
    · simp only [stopAux, if_neg hk]
      refine ih (k + 1) ?_ ?_
      · intro j hj
        rcases Nat.lt_succ_iff_lt_or_eq.mp hj with h | h
        · exact hprev j h
        · subst h; exact lt_of_not_le hk
      · obtain ⟨j, hj1, hj2, hj3⟩ := hex
        refine ⟨j, ?_, by omega, hj3⟩
        rcases Nat.eq_or_lt_of_le hj1 with h | h
        · subst h; exact absurd hj3 hk
        · omega

theorem ffdStop_spec (d t : ℚ) (hd : 0 ≤ d) (ht : 0 < t) :
    |wseq d (ffdStop d t)| ≤ t ∧ ∀ j < ffdStop d t, t < |wseq d j| := by
  refine stopAux_spec d t (ffdBound d t + 1) 0 (by omega) ?_
  exact ⟨ffdBound d t, by omega, by omega, wseq_eventually_small d t hd ht⟩

theorem ffdStop_unique (d t : ℚ) (hd : 0 ≤ d) (ht : 0 < t) (m : ℕ)
    (hm : |wseq d m| ≤ t) (hlt : ∀ k < m, t < |wseq d k|) :
    ffdStop d t = m := by
  obtain ⟨h1, h2⟩ := ffdStop_spec d t hd ht
  by_contra hne
  rcases Nat.lt_or_ge (ffdStop d t) m with h | h
  · exact absurd h1 (not_le.mpr (hlt _ h))
  · have : ffdStop d t ≠ m := hne
    have hmlt : m < ffdStop d t := by omega
    exact absurd hm (not_le.mpr (h2 _ hmlt))

end Algo

namespace Algo

/-! ## Lemmas about the application loop of `fractional_diff` -/

theorem dotProd_eq_sum (a b : List ℚ) :
    dotProd a b =
      Finset.sum (Finset.range (min a.length b.length)) (fun j => a.getD j 0 * b.getD j 0) := by
  induction a generalizing b with
  | nil => simp [dotProd]
  | cons x xs ih =>
    cases b with
    | nil => simp [dotProd]
    | cons y ys =>
      have hmin : min (x :: xs).length (y :: ys).length = min xs.length ys.length + 1 := by
        simp [Nat.succ_min_succ]
      rw [hmin, Finset.sum_range_succ']
      simp only [List.getD_cons_succ, List.getD_cons_zero]
      have : dotProd (x :: xs) (y :: ys) = x * y + dotProd xs ys := by
        simp [dotProd, List.zipWith]
      rw [this, ih ys]
      ring

theorem window_length (s : List ℚ) (a wl : ℕ) (h : wl + a ≤ s.length) :
    ((s.drop a).take wl).length = wl := by
  simp [List.length_take, List.length_drop]
  omega

theorem window_getD (s : List ℚ) (a wl j : ℕ) (hj : j < wl) :
    ((s.drop a).take wl).getD j 0 = s.getD (a + j) 0 := by
  simp only [List.getD_eq_getElem?_getD]
  rw [List.getElem?_take_of_lt hj, List.getElem?_drop]

theorem reverse_getD (w : List ℚ) (j : ℕ) (hj : j < w.length) :
    w.reverse.getD j 0 = w.getD (w.length - 1 - j) 0 := by
  simp only [List.getD_eq_getElem?_getD]
  rw [List.getElem?_reverse (by simpa using hj)]

theorem fdiffWith_mem (w s : List ℚ) (i : ℕ) (v : ℚ) :
    (i, v) ∈ fdiffWith w s ↔
      w.length ≤ i ∧ i < s.length ∧
        v = dotProd w.reverse ((s.drop (i - w.length)).take w.length) := by
  unfold fdiffWith
  rw [List.mem_filterMap]
  constructor
  · rintro ⟨a, ha, haeq⟩
    rw [List.mem_range] at ha
    by_cases h : w.length ≤ a
    · rw [if_pos h] at haeq
      simp only [Option.some.injEq, Prod.mk.injEq] at haeq
      obtain ⟨rfl, hv⟩ := haeq
      exact ⟨h, ha, hv.symm⟩
    · rw [if_neg h] at haeq
      exact absurd haeq (by simp)
  · rintro ⟨h1, h2, rfl⟩
    exact ⟨i, List.mem_range.mpr h2, by rw [if_pos h1]⟩

theorem fdiffWith_value (w s : List ℚ) (i : ℕ) (h1 : w.length ≤ i) (h2 : i < s.length) :
    dotProd w.reverse ((s.drop (i - w.length)).take w.length) =
      Finset.sum (Finset.range w.length)
        (fun j => w.getD (w.length - 1 - j) 0 * s.getD (i - w.length + j) 0) := by
  have hwin : ((s.drop (i - w.length)).take w.length).length = w.length :=
    window_length s (i - w.length) w.length (by omega)
  rw [dotProd_eq_sum, List.length_reverse, hwin, min_self]
  refine Finset.sum_congr rfl ?_
  intro j hj
  rw [Finset.mem_range] at hj
  rw [reverse_getD w j hj, window_getD s (i - w.length) w.length j hj]

theorem fdiffWith_eq_nil (w s : List ℚ) (h : s.length ≤ w.length) :
    fdiffWith w s = [] := by
  unfold fdiffWith
  rw [List.filterMap_eq_nil_iff]
  intro a ha
  rw [List.mem_range] at ha
  rw [if_neg (by omega)]

end Algo

namespace Algo

/-! ## Concrete weight vectors

`Rat` arithmetic does not reduce in the kernel (its normalisation uses
well-founded recursion), so concrete weight vectors are computed through
`ffdStop_unique` and `norm_num` instead of `decide`. -/

theorem ffdWeights_length (d t : ℚ) : (ffdWeights d t).length = ffdStop d t + 1 := by
  simp [ffdWeights]

theorem wseq_zero (d : ℚ) : wseq d 0 = 1 := rfl

theorem wseq_d0_one : wseq 0 1 = 0 := by
  rw [show (1 : ℕ) = 0 + 1 from rfl, wseq_succ, wseq_zero]
  norm_num

theorem ffdStop_d0 (t : ℚ) (ht : 0 < t) (ht1 : t < 1) : ffdStop 0 t = 1 := by
  refine ffdStop_unique 0 t le_rfl ht 1 (by rw [wseq_d0_one]; simpa using le_of_lt ht) ?_
  intro k hk
  interval_cases k
  rw [wseq_zero]
  simpa using ht1

theorem ffdWeights_d0 (t : ℚ) (ht : 0 < t) (ht1 : t < 1) : ffdWeights 0 t = [1, 0] := by
  rw [ffdWeights, ffdStop_d0 t ht ht1,
    show (List.range 2).map (wseq 0) = [wseq 0 0, wseq 0 1] from rfl, wseq_zero, wseq_d0_one]

theorem wseq_d1_one : wseq 1 1 = -1 := by
  rw [show (1 : ℕ) = 0 + 1 from rfl, wseq_succ, wseq_zero]
  norm_num

theorem wseq_d1_two : wseq 1 2 = 0 := by
  rw [show (2 : ℕ) = 1 + 1 from rfl, wseq_succ, wseq_d1_one]
  norm_num

theorem ffdWeights_d1 : ffdWeights 1 (1 / 2) = [1, -1, 0] := by
  have hstop : ffdStop 1 (1 / 2) = 2 := by
    refine ffdStop_unique 1 (1 / 2) (by norm_num) (by norm_num) 2
      (by rw [wseq_d1_two]; norm_num) ?_
    intro k hk
    interval_cases k
    · rw [wseq_zero]; norm_num
    · rw [wseq_d1_one]; norm_num
  rw [ffdWeights, hstop,
    show (List.range 3).map (wseq 1) = [wseq 1 0, wseq 1 1, wseq 1 2] from rfl,
    wseq_zero, wseq_d1_one, wseq_d1_two]

theorem wseq_d6_one : wseq 6 1 = -6 := by
  rw [show (1 : ℕ) = 0 + 1 from rfl, wseq_succ, wseq_zero]; norm_num

theorem wseq_d6_two : wseq 6 2 = 15 := by
  rw [show (2 : ℕ) = 1 + 1 from rfl, wseq_succ, wseq_d6_one]; norm_num

theorem wseq_d6_three : wseq 6 3 = -20 := by
  rw [show (3 : ℕ) = 2 + 1 from rfl, wseq_succ, wseq_d6_two]; norm_num

theorem wseq_d6_four : wseq 6 4 = 15 := by
  rw [show (4 : ℕ) = 3 + 1 from rfl, wseq_succ, wseq_d6_three]; norm_num

theorem wseq_d6_five : wseq 6 5 = -6 := by
  rw [show (5 : ℕ) = 4 + 1 from rfl, wseq_succ, wseq_d6_four]; norm_num

theorem wseq_d6_six : wseq 6 6 = 1 := by
  rw [show (6 : ℕ) = 5 + 1 from rfl, wseq_succ, wseq_d6_five]; norm_num

theorem wseq_d6_seven : wseq 6 7 = 0 := by
  rw [show (7 : ℕ) = 6 + 1 from rfl, wseq_succ, wseq_d6_six]; norm_num

theorem ffdWeights_d6 : ffdWeights 6 (1 / 100000) = [1, -6, 15, -20, 15, -6, 1, 0] := by
  have hstop : ffdStop 6 (1 / 100000) = 7 := by
    refine ffdStop_unique 6 (1 / 100000) (by norm_num) (by norm_num) 7
      (by rw [wseq_d6_seven]; norm_num) ?_
    intro k hk
    interval_cases k
    · rw [wseq_zero]; norm_num
    · rw [wseq_d6_one]; norm_num
    · rw [wseq_d6_two]; norm_num
    · rw [wseq_d6_three]; norm_num
    · rw [wseq_d6_four]; norm_num
    · rw [wseq_d6_five]; norm_num
    · rw [wseq_d6_six]; norm_num
  rw [ffdWeights, hstop,
    show (List.range 8).map (wseq 6) =
      [wseq 6 0, wseq 6 1, wseq 6 2, wseq 6 3, wseq 6 4, wseq 6 5, wseq 6 6, wseq 6 7] from rfl,
    wseq_zero, wseq_d6_one, wseq_d6_two, wseq_d6_three, wseq_d6_four, wseq_d6_five,
    wseq_d6_six, wseq_d6_seven]

theorem wseq_half_one : wseq (1 / 2) 1 = -(1 / 2) := by
  rw [show (1 : ℕ) = 0 + 1 from rfl, wseq_succ, wseq_zero]; norm_num

theorem wseq_half_two : wseq (1 / 2) 2 = -(1 / 8) := by
  rw [show (2 : ℕ) = 1 + 1 from rfl, wseq_succ, wseq_half_one]; norm_num

theorem wseq_half_three : wseq (1 / 2) 3 = -(1 / 16) := by
  rw [show (3 : ℕ) = 2 + 1 from rfl, wseq_succ, wseq_half_two]; norm_num

end Algo

namespace Algo

/-- With weights `[1, 0]` the output value at position `i ≥ 2` is the
input value at position `i - 1`. -/
theorem fdiff_lag_value (s : List ℚ) (i : ℕ) (h1 : 2 ≤ i) (h2 : i < s.length) :
    dotProd ([(1 : ℚ), 0].reverse) ((s.drop (i - 2)).take 2) = s.getD (i - 1) 0 := by
  have hrev : [(1 : ℚ), 0].reverse = [0, 1] := rfl
  have hlen : ((s.drop (i - 2)).take 2).length = 2 := window_length s (i - 2) 2 (by omega)
  rw [hrev, dotProd_eq_sum, hlen]
  rw [show [(0 : ℚ), 1].length = 2 from rfl, min_self]
  rw [Finset.sum_range_succ, Finset.sum_range_succ, Finset.sum_range_zero]
  rw [window_getD s (i - 2) 2 1 (by norm_num)]
  rw [show ([(0 : ℚ), 1].getD 0 0) = 0 from rfl, show ([(0 : ℚ), 1].getD 1 0) = 1 from rfl]
  rw [show i - 2 + 1 = i - 1 by omega]
  ring

/-- Claim C3 (counterexample): the output value at position `i` uses the
window `series[i-width : i]`, which excludes position `i`: on the series
`[0,0,0,5]` with `d = 1`, `threshold = 1/2`, the code's value at
position 3 is `0`, while the spec's "window ending at (and including)
`i`" reading yields `5`. -/
theorem C3_window_counterexample :
    fractional_diff [0, 0, 0, 5] 1 (1 / 2) = [(3, 0)] ∧
    fractionalDiffSpec [0, 0, 0, 5] 1 (1 / 2) = [(3, 5)] ∧
    fractional_diff [0, 0, 0, 5] 1 (1 / 2) ≠ fractionalDiffSpec [0, 0, 0, 5] 1 (1 / 2) := by
  have h1 : fractional_diff [0, 0, 0, 5] 1 (1 / 2) =
      [(3, dotProd [0, -1, 1] [0, 0, 0])] := by
    rw [fractional_diff, ffdWeights_d1]
    rfl
  have h2 : fractionalDiffSpec [0, 0, 0, 5] 1 (1 / 2) =
      [(3, dotProd [0, -1, 1] [0, 0, 5])] := by
    rw [fractionalDiffSpec, ffdWeights_d1]
    rfl
  have e1 : dotProd [0, -1, 1] [0, 0, 0] = 0 := by
    simp [dotProd]
  have e2 : dotProd [0, -1, 1] [0, 0, 5] = 5 := by
    norm_num [dotProd]
  refine ⟨by rw [h1, e1], by rw [h2, e2], ?_⟩
  rw [h1, h2, e1, e2]
  norm_num

/-- Claim C3 (amended): for every series, every `d ≥ 0` and every
threshold > 0, the output of `fractional_diff` is defined exactly at
input positions `i = width, ..., len-1` (`width` = weight-vector
length) — hence empty whenever the series has fewer than `width+1`
valid points — and the value at each such position equals the dot
product of the reversed weight vector with the `width` input values
ending at (and excluding) position `i`, i.e. positions
`i-width, ..., i-1`. -/
theorem C3_window_amended (s : List ℚ) (d t : ℚ) (hd : 0 ≤ d) (ht : 0 < t) :
    (∀ i v, ((i, v) ∈ fractional_diff s d t ↔
      (ffdWeights d t).length ≤ i ∧ i < s.length ∧
        v = Finset.sum (Finset.range (ffdWeights d t).length)
          (fun j => (ffdWeights d t).getD ((ffdWeights d t).length - 1 - j) 0 *
            s.getD (i - (ffdWeights d t).length + j) 0))) ∧
    (s.length < (ffdWeights d t).length + 1 → fractional_diff s d t = []) := by
  constructor
  · intro i v
    rw [fractional_diff, fdiffWith_mem]
    constructor
    · rintro ⟨h1, h2, rfl⟩
      exact ⟨h1, h2, fdiffWith_value _ _ _ h1 h2⟩
    · rintro ⟨h1, h2, rfl⟩
      exact ⟨h1, h2, (fdiffWith_value _ _ _ h1 h2).symm⟩
  · intro h
    exact fdiffWith_eq_nil _ _ (by omega)

/-- Claim C3 (witness): the amended window law instantiated at
`series = [2,4,6,8]`, `d = 1`, `threshold = 1/2`: the weight vector is
`[1,-1,0]` and position 3 carries `0·2 + (-1)·4 + 1·6 = 2`. -/
theorem C3_window_witness : (3, (2 : ℚ)) ∈ fractional_diff [2, 4, 6, 8] 1 (1 / 2) := by
  have h := (C3_window_amended [2, 4, 6, 8] 1 (1 / 2) (by norm_num) (by norm_num)).1 3 2
  rw [ffdWeights_d1] at h
  refine h.mpr ⟨by norm_num, by norm_num, ?_⟩
  rw [show [(1 : ℚ), -1, 0].length = 3 from rfl]
  rw [Finset.sum_range_succ, Finset.sum_range_succ, Finset.sum_range_succ,
    Finset.sum_range_zero]
  norm_num [List.getD]

/-- Claim C2 (counterexample): with `d = 0` and the default threshold
`1e-5` the constructed weight vector is `[1, 0]`, not `[1]` (the loop
keeps the terminal below-threshold weight), and on the series `[1,2,3]`
the output is the one-step-lagged singleton `[(2, 2)]`, not the
unchanged input. -/
theorem C2_identity_counterexample :
    ffdWeights 0 (1 / 100000) = [1, 0] ∧
    ffdWeights 0 (1 / 100000) ≠ [1] ∧
    fractional_diff [1, 2, 3] 0 (1 / 100000) = [(2, 2)] ∧
    fractional_diff [1, 2, 3] 0 (1 / 100000) ≠ [(0, 1), (1, 2), (2, 3)] := by
  have hw : ffdWeights 0 (1 / 100000) = [1, 0] := ffdWeights_d0 _ (by norm_num) (by norm_num)
  have h1 : fractional_diff [1, 2, 3] 0 (1 / 100000) = [(2, dotProd [0, 1] [1, 2])] := by
    rw [fractional_diff, hw]
    rfl
  have e1 : dotProd [0, 1] [1, 2] = 2 := by norm_num [dotProd]
  refine ⟨hw, by rw [hw]; simp, by rw [h1, e1], by rw [h1, e1]; simp⟩

/-- Claim C2 (amended): for every valid series and every threshold with
`0 < threshold < 1` (which includes the default `1e-5`), fractional
differentiation with `d = 0` builds the weight vector `[1, 0]` — not
`[1]` — and acts as the one-step lag, not the identity: the output is
defined at positions `2, ..., len-1` and the value at position `i` is
the input value at position `i-1`. -/
theorem C2_lag_amended (s : List ℚ) (t : ℚ) (ht : 0 < t) (ht1 : t < 1) :
    ffdWeights 0 t = [1, 0] ∧
    ∀ i v, ((i, v) ∈ fractional_diff s 0 t ↔ 2 ≤ i ∧ i < s.length ∧ v = s.getD (i - 1) 0) := by
  have hw : ffdWeights 0 t = [1, 0] := ffdWeights_d0 t ht ht1
  refine ⟨hw, ?_⟩
  intro i v
  rw [fractional_diff, hw, fdiffWith_mem]
  constructor
  · rintro ⟨h1, h2, rfl⟩
    have h1' : 2 ≤ i := by simpa using h1
    refine ⟨h1', h2, ?_⟩
    rw [show [(1 : ℚ), 0].length = 2 from rfl]
    exact fdiff_lag_value s i h1' h2
  · rintro ⟨h1, h2, rfl⟩
    refine ⟨by simpa using h1, h2, ?_⟩
    rw [show [(1 : ℚ), 0].length = 2 from rfl]
    exact (fdiff_lag_value s i h1 h2).symm

/-- Claim C2 (witness): the amended lag law at `series = [3,7,9]`,
`threshold = 1/2`: the weights are `[1,0]` and position 2 carries the
input value from position 1. -/
theorem C2_lag_witness :
    (0 : ℚ) < 1 / 2 ∧ (1 / 2 : ℚ) < 1 ∧
    ffdWeights 0 (1 / 2) = [1, 0] ∧
    (2, (7 : ℚ)) ∈ fractional_diff [3, 7, 9] 0 (1 / 2) := by
  have h := C2_lag_amended [3, 7, 9] (1 / 2) (by norm_num) (by norm_num)
  exact ⟨by norm_num, by norm_num, h.1,
    (h.2 2 7).mpr ⟨by norm_num, by norm_num, by norm_num [List.getD]⟩⟩

/-- Claim C8 (counterexample): the truncation loop retains the terminal
weight whose magnitude is below the threshold (`[1, 0]` for `d = 0`,
`threshold = 1e-5`), and for `d = 6` the magnitudes increase past the
first two terms (`|w 3| = 20 > 15 = |w 2|`), so neither the
"retains no weight below the threshold" part nor monotonicity for every
`d ≥ 0` holds as stated. -/
theorem C8_weights_counterexample :
    ffdWeights 0 (1 / 100000) = [1, 0] ∧
    |(0 : ℚ)| < 1 / 100000 ∧
    ffdWeights 6 (1 / 100000) = [1, -6, 15, -20, 15, -6, 1, 0] ∧
    |(ffdWeights 6 (1 / 100000)).getD 2 0| < |(ffdWeights 6 (1 / 100000)).getD 3 0| := by
  refine ⟨ffdWeights_d0 _ (by norm_num) (by norm_num), by norm_num, ffdWeights_d6, ?_⟩
  rw [ffdWeights_d6]
  norm_num [List.getD]

/-- Claim C8 (amended): for `0 ≤ d ≤ 3` (covering the documented range
`0 < d < 1`) and every threshold > 0: the weight magnitudes are
non-increasing from the second term on; the vector length is the
deterministic function of `(d, threshold)` characterised as one more
than the first index whose weight magnitude is at or below the
threshold; every weight except the last exceeds the threshold in
magnitude; and exactly the one trailing weight with
`|w| ≤ threshold` is retained. -/
theorem C8_weights_amended (d t : ℚ) (hd : 0 ≤ d) (hd3 : d ≤ 3) (ht : 0 < t) :
    (∀ k, 1 ≤ k → |wseq d (k + 1)| ≤ |wseq d k|) ∧
    (∀ m, |wseq d m| ≤ t → (∀ k < m, t < |wseq d k|) → (ffdWeights d t).length = m + 1) ∧
    (∀ k, k + 1 < (ffdWeights d t).length → t < |wseq d k|) ∧
    |wseq d ((ffdWeights d t).length - 1)| ≤ t := by
  obtain ⟨h1, h2⟩ := ffdStop_spec d t hd ht
  refine ⟨?_, ?_, ?_, ?_⟩
  · intro k hk
    rw [abs_wseq_succ]
    have hk1 : (1 : ℚ) ≤ (k : ℚ) := by exact_mod_cast hk
    have habs : |d - (k : ℚ)| ≤ (k : ℚ) + 1 := by
      rw [abs_le]
      constructor <;> linarith
    have hpos : (0 : ℚ) < (k : ℚ) + 1 := by linarith
    rw [div_le_iff₀ hpos]
    exact mul_le_mul_of_nonneg_left habs (abs_nonneg _)
  · intro m hm hlt
    rw [ffdWeights_length, ffdStop_unique d t hd ht m hm hlt]
  · intro k hk
    rw [ffdWeights_length] at hk
    exact h2 k (by omega)
  · rw [ffdWeights_length]
    simpa using h1

/-- Claim C8 (witness): the amended invariants at `d = 1/2`,
`threshold = 1/10`: `|w 2| ≤ |w 1|`, and the weight vector has length 4
because `|w 3| = 1/16` is the first magnitude at or below `1/10`. -/
theorem C8_weights_witness :
    (0 : ℚ) ≤ 1 / 2 ∧ (1 / 2 : ℚ) ≤ 3 ∧ (0 : ℚ) < 1 / 10 ∧
    |wseq (1 / 2) 2| ≤ |wseq (1 / 2) 1| ∧
    (ffdWeights (1 / 2) (1 / 10)).length = 4 := by
  have h := C8_weights_amended (1 / 2) (1 / 10) (by norm_num) (by norm_num) (by norm_num)
  refine ⟨by norm_num, by norm_num, by norm_num, h.1 1 le_rfl, ?_⟩
  refine h.2.1 3 ?_ ?_
  · rw [wseq_half_three, abs_neg, abs_of_nonneg (by norm_num : (0 : ℚ) ≤ 1 / 16)]
    norm_num
  · intro k hk
    interval_cases k
    · rw [wseq_zero]; norm_num
    · rw [wseq_half_one, abs_neg, abs_of_nonneg (by norm_num : (0 : ℚ) ≤ 1 / 2)]
      norm_num
    · rw [wseq_half_two, abs_neg, abs_of_nonneg (by norm_num : (0 : ℚ) ≤ 1 / 8)]
      norm_num

end Algo

namespace Algo

/-! ## Lemmas about the `find_min_ffd` scan -/

theorem firstQualifying_eq_none (p : ℕ → Bool) :
    ∀ l, firstQualifying p l = none ↔ ∀ k ∈ l, p k = false := by
  intro l
  induction l with
  | nil => simp [firstQualifying]
  | cons a tl ih =>
    by_cases h : p a = true
    · simp [firstQualifying, h]
    · simp only [firstQualifying, if_neg h, ih, List.mem_cons]
      constructor
      · intro hall k hk
        rcases hk with rfl | hk
        · simpa using h
        · exact hall k hk
      · intro hall k hk
        exact hall k (Or.inr hk)

theorem firstQualifying_mem (p : ℕ → Bool) :
    ∀ l k, firstQualifying p l = some k → k ∈ l ∧ p k = true := by
  intro l
  induction l with
  | nil => intro k h; simp [firstQualifying] at h
  | cons a tl ih =>
    intro k h
    by_cases hpa : p a = true
    · rw [firstQualifying, if_pos hpa] at h
      injection h with h
      subst h
      exact ⟨List.mem_cons_self _ _, hpa⟩
    · rw [firstQualifying, if_neg hpa] at h
      obtain ⟨hm, hp⟩ := ih k h
      exact ⟨List.mem_cons_of_mem _ hm, hp⟩

theorem firstQualifying_min (p : ℕ → Bool) :
    ∀ l, l.Pairwise (· ≤ ·) → ∀ k, firstQualifying p l = some k →
      ∀ j ∈ l, p j = true → k ≤ j := by
  intro l
  induction l with
  | nil => intro _ k h; simp [firstQualifying] at h
  | cons a tl ih =>
    intro hpw k h j hj hpj
    rw [List.pairwise_cons] at hpw
    by_cases hpa : p a = true
    · rw [firstQualifying, if_pos hpa] at h
      injection h with h
      subst h
      rcases List.mem_cons.mp hj with rfl | hj'
      · exact le_refl _
      · exact hpw.1 j hj'
    · rw [firstQualifying, if_neg hpa] at h
      rcases List.mem_cons.mp hj with rfl | hj'
      · exact absurd hpj hpa
      · exact ih hpw.2 k h j hj' hpj

/-- Claim C5: `find_min_ffd` scans the ascending grid `k/10`,
`k < ⌈10·max_d⌉` (every candidate strictly below `max_d`); a candidate
qualifies exactly when its differenced series has at least 10 valid
points and the oracle p-value is below 0.05; the returned value is at
most every qualifying candidate, is itself a qualifying candidate when
one exists, and equals `max_d` exactly when none qualifies. -/
theorem C5_find_min_ffd (s : List ℚ) (maxD t : ℚ) (oracle : List (ℕ × ℚ) → ℚ)
    (ht : 0 < t) :
    (∀ k ∈ List.range (⌈maxD * 10⌉.toNat),
      (ffdQualifies s t oracle k = true ↔
        10 ≤ (fractional_diff s ((k : ℚ) / 10) t).length ∧
          oracle (fractional_diff s ((k : ℚ) / 10) t) < 1 / 20)) ∧
    (∀ k ∈ List.range (⌈maxD * 10⌉.toNat), (k : ℚ) / 10 < maxD) ∧
    (∀ k ∈ List.range (⌈maxD * 10⌉.toNat), ffdQualifies s t oracle k = true →
      find_min_ffd s maxD t oracle ≤ (k : ℚ) / 10) ∧
    ((∃ k ∈ List.range (⌈maxD * 10⌉.toNat), ffdQualifies s t oracle k = true) →
      ∃ k ∈ List.range (⌈maxD * 10⌉.toNat), ffdQualifies s t oracle k = true ∧
        find_min_ffd s maxD t oracle = (k : ℚ) / 10) ∧
    ((∀ k ∈ List.range (⌈maxD * 10⌉.toNat), ffdQualifies s t oracle k = false) →
      find_min_ffd s maxD t oracle = maxD) := by
  refine ⟨?_, ?_, ?_, ?_, ?_⟩
  · intro k _
    simp [ffdQualifies, Bool.and_eq_true, decide_eq_true_eq]
  · intro k hk
    rw [List.mem_range] at hk
    have h1 : (k : ℤ) < ⌈maxD * 10⌉ := Int.lt_toNat.mp hk
    have h2 : (k : ℚ) < maxD * 10 := by exact_mod_cast Int.lt_ceil.mp h1
    rw [div_lt_iff₀ (by norm_num : (0 : ℚ) < 10)]
    linarith
  · intro k hk hq
    cases hfq : firstQualifying (ffdQualifies s t oracle) (List.range (⌈maxD * 10⌉.toNat)) with
    | none =>
      have := (firstQualifying_eq_none _ _).mp hfq k hk
      rw [hq] at this
      cases this
    | some k0 =>
      have hmin := firstQualifying_min _ _ (List.sorted_le_range _) k0 hfq k hk hq
      have hc : (k0 : ℚ) ≤ (k : ℚ) := by exact_mod_cast hmin
      unfold find_min_ffd
      rw [hfq]
      show (k0 : ℚ) / 10 ≤ (k : ℚ) / 10
      linarith
  · rintro ⟨k, hk, hq⟩
    cases hfq : firstQualifying (ffdQualifies s t oracle) (List.range (⌈maxD * 10⌉.toNat)) with
    | none =>
      have := (firstQualifying_eq_none _ _).mp hfq k hk
      rw [hq] at this
      cases this
    | some k0 =>
      obtain ⟨hmem, hp⟩ := firstQualifying_mem _ _ k0 hfq
      refine ⟨k0, hmem, hp, ?_⟩
      unfold find_min_ffd
      rw [hfq]
  · intro hall
    cases hfq : firstQualifying (ffdQualifies s t oracle) (List.range (⌈maxD * 10⌉.toNat)) with
    | none =>
      unfold find_min_ffd
      rw [hfq]
    | some k0 =>
      obtain ⟨hmem, hp⟩ := firstQualifying_mem _ _ k0 hfq
      rw [hall k0 hmem] at hp
      cases hp

/-- Claim C5 (witness): on the 12-point series `0..11` with `d = 0`
qualifying under an oracle that always reports p-value 0 (10 valid
points, p < 0.05), `find_min_ffd` returns at most candidate `0/10`. -/
theorem C5_find_min_ffd_witness :
    (0 : ℚ) < 1 / 100000 ∧
    ffdQualifies [0, 1, 2, 3, 4, 5, 6, 7, 8, 9, 10, 11] (1 / 100000) (fun _ => 0) 0 = true ∧
    find_min_ffd [0, 1, 2, 3, 4, 5, 6, 7, 8, 9, 10, 11] 1 (1 / 100000) (fun _ => 0) ≤
      ((0 : ℕ) : ℚ) / 10 := by
  have h := C5_find_min_ffd [0, 1, 2, 3, 4, 5, 6, 7, 8, 9, 10, 11] 1 (1 / 100000)
    (fun _ => 0) (by norm_num)
  have hmem : (0 : ℕ) ∈ List.range (⌈(1 : ℚ) * 10⌉.toNat) := by
    rw [List.mem_range]
    rw [show ((1 : ℚ) * 10) = ((10 : ℤ) : ℚ) by norm_num, Int.ceil_intCast]
    norm_num
  have hlen : (fractional_diff [0, 1, 2, 3, 4, 5, 6, 7, 8, 9, 10, 11]
      (((0 : ℕ) : ℚ) / 10) (1 / 100000)).length = 10 := by
    rw [show (((0 : ℕ) : ℚ) / 10) = 0 by norm_num, fractional_diff,
      ffdWeights_d0 _ (by norm_num) (by norm_num)]
    rfl
  have hq : ffdQualifies [0, 1, 2, 3, 4, 5, 6, 7, 8, 9, 10, 11] (1 / 100000) (fun _ => 0) 0 =
      true := by
    rw [h.1 0 hmem]
    rw [hlen]
    norm_num
  exact ⟨by norm_num, hq, h.2.2.1 0 hmem hq⟩

end Algo

namespace Algo

/-! ## Flat-series lemmas (claim C4) -/

theorem mean_zero (l : List ℚ) (h : ∀ x ∈ l, x = 0) : mean l = 0 := by
  rw [mean, List.sum_eq_zero h, zero_div]

theorem mean_replicate (m : ℕ) (c : ℚ) (hm : m ≠ 0) : mean (List.replicate m c) = c := by
  rw [mean, List.sum_replicate, nsmul_eq_mul, List.length_replicate]
  have hq : (m : ℚ) ≠ 0 := Nat.cast_ne_zero.mpr hm
  field_simp

theorem sampleVar_replicate (m : ℕ) (c : ℚ) : sampleVar (List.replicate m c) = 0 := by
  rcases Nat.eq_zero_or_pos m with rfl | hm
  · simp [sampleVar]
  · rw [sampleVar, List.map_replicate, mean_replicate m c hm.ne']
    simp

theorem windowsOf_replicate (n lag : ℕ) (c : ℚ) (hlag : lag ≤ n) :
    ∀ w ∈ windowsOf (List.replicate n c) lag, w = List.replicate lag c := by
  intro w hw
  rw [windowsOf, List.mem_map] at hw
  obtain ⟨j, hj, rfl⟩ := hw
  rw [List.mem_range, List.length_replicate] at hj
  rw [List.drop_replicate, List.take_replicate]
  congr 1
  omega

theorem hurstMeanStd_replicate (sq : ℚ → ℚ) (n lag : ℕ) (c : ℚ) (hsq : sq 0 = 0)
    (hlag : lag ≤ n) : hurstMeanStd sq (List.replicate n c) lag = 0 := by
  rw [hurstMeanStd]
  refine mean_zero _ ?_
  intro x hx
  rw [List.mem_map] at hx
  obtain ⟨w, hw, rfl⟩ := hx
  rw [windowsOf_replicate n lag c hlag w hw, sampleVar_replicate, hsq]

theorem hurstRS_replicate (sq : ℚ → ℚ) (n lag : ℕ) (c : ℚ) (hsq : sq 0 = 0)
    (hlag : lag ≤ n) : hurstRS sq (List.replicate n c) lag = 0 := by
  rw [hurstRS, hurstMeanStd_replicate sq n lag c hsq hlag]
  norm_num

theorem sxxOf_replicate (n : ℕ) (c : ℚ) : sxxOf (List.replicate n c) = 0 := by
  rw [sxxOf, List.dropLast_replicate, List.map_replicate, List.sum_replicate,
    List.sum_replicate, List.length_replicate, nsmul_eq_mul, nsmul_eq_mul]
  ring

theorem olsTheta_replicate (n : ℕ) (c : ℚ) : olsTheta (List.replicate n c) = 0 := by
  rw [olsTheta]
  simp [sxxOf_replicate]

/-- Claim C4 (counterexample): on the one-observation constant series
`[5]` the half-life regression has zero samples, so sklearn's `fit`
raises `ValueError` — the claim's "for every constant price series ...
terminate without raising" fails at series shorter than two points. -/
theorem C4_flat_counterexample :
    List.replicate 1 (5 : ℚ) = [5] ∧
    calculate_half_life [(5 : ℚ)] = .error "ValueError" := by
  refine ⟨rfl, ?_⟩
  unfold calculate_half_life
  rw [if_pos (by norm_num)]

/-- Claim C4 (amended): for every constant (flat) price series with at
least two observations, the estimators terminate without raising and
yield the documented degenerate defaults: every rescaled-range
statistic is substituted with 0 (the mean rolling standard deviation is
0), the `H = 0.5` fallback fires only when no lag yields a usable
statistic (and with at least two points and `max_lag ≥ 3` some lag
always does), every z-score entry is undefined (zero-variance windows),
and the half-life regression degenerates to `θ = 0 ≥ 0`, returning
`+∞` rather than dividing by zero. -/
theorem C4_flat_amended (c : ℚ) (n maxLag window : ℕ) (sq lg : ℚ → ℚ)
    (hsq : sq 0 = 0) (hn : 2 ≤ n) (hwin : 1 ≤ window) :
    (∀ rs ∈ hurstTau sq (List.replicate n c) maxLag, rs = 0) ∧
    (hurstTau sq (List.replicate n c) maxLag = [] →
      calculate_hurst_exponent sq lg (List.replicate n c) maxLag = 1 / 2) ∧
    (3 ≤ maxLag → hurstTau sq (List.replicate n c) maxLag ≠ []) ∧
    (∀ z ∈ calculate_z_score sq (List.replicate n c) window, z = none) ∧
    calculate_half_life (List.replicate n c) = .ok .inf := by
  refine ⟨?_, ?_, ?_, ?_, ?_⟩
  · intro rs hrs
    rw [hurstTau, List.mem_filterMap] at hrs
    obtain ⟨lag, _, hsome⟩ := hrs
    rw [List.length_replicate] at hsome
    by_cases hlag : n < lag
    · rw [if_pos hlag] at hsome
      cases hsome
    · rw [if_neg hlag] at hsome
      injection hsome with hsome
      rw [← hsome, hurstRS_replicate sq n lag c hsq (by omega)]
  · intro h
    simp [calculate_hurst_exponent, h]
  · intro hml
    have hmem : hurstRS sq (List.replicate n c) 2 ∈ hurstTau sq (List.replicate n c) maxLag := by
      rw [hurstTau, List.mem_filterMap]
      refine ⟨2, ?_, ?_⟩
      · rw [List.mem_range']
        exact ⟨0, by omega, by omega⟩
      · rw [List.length_replicate, if_neg (by omega)]
    exact List.ne_nil_of_mem hmem
  · intro z hz
    rw [calculate_z_score, List.mem_map] at hz
    obtain ⟨i, _, rfl⟩ := hz
    by_cases hiw : i + 1 < window
    · rw [if_pos hiw]
    · rw [if_neg hiw]
      have hslice : ((List.replicate n c).drop (i + 1 - window)).take window =
          List.replicate (min window (n - (i + 1 - window))) c := by
        rw [List.drop_replicate, List.take_replicate]
      simp only [hslice, sampleVar_replicate, hsq]
      simp
  · unfold calculate_half_life
    rw [if_neg (by rw [List.length_replicate]; omega), olsTheta_replicate]
    norm_num

/-- Claim C4 (witness): the amended degenerate-default behaviour at the
concrete flat series of 25 fives with the default `max_lag = 20` and
`window = 20` (square root and log instantiated with functions fixing
0, as floating-point `sqrt` does). -/
theorem C4_flat_witness :
    (∀ rs ∈ hurstTau id (List.replicate 25 (5 : ℚ)) 20, rs = 0) ∧
    (hurstTau id (List.replicate 25 (5 : ℚ)) 20 = [] →
      calculate_hurst_exponent id id (List.replicate 25 (5 : ℚ)) 20 = 1 / 2) ∧
    (3 ≤ 20 → hurstTau id (List.replicate 25 (5 : ℚ)) 20 ≠ []) ∧
    (∀ z ∈ calculate_z_score id (List.replicate 25 (5 : ℚ)) 20, z = none) ∧
    calculate_half_life (List.replicate 25 (5 : ℚ)) = .ok .inf :=
  C4_flat_amended 5 25 20 20 id id rfl (by norm_num) (by norm_num)

/-! ## Claim C6: the half-life branch law -/

/-- Claim C6: whenever the OLS regression of the spread's first
difference on its lagged level is defined (non-degenerate design,
`sxx ≠ 0`), `calculate_half_life` returns `-ln 2 / θ` when the decay
coefficient `θ` is strictly negative and `+∞` exactly when `θ ≥ 0`,
never raising on a non-mean-reverting series. -/
theorem C6_half_life (s : List ℚ) (h : sxxOf s ≠ 0) :
    (olsTheta s < 0 →
      calculate_half_life s = .ok (.val (-Real.log 2 / (olsTheta s : ℝ)))) ∧
    (0 ≤ olsTheta s → calculate_half_life s = .ok .inf) := by
  have hlen : ¬(s.length ≤ 1) := by
    intro hle
    apply h
    have hx : s.dropLast = [] := by
      have h0 : s.dropLast.length = 0 := by
        rw [List.length_dropLast]
        omega
      exact List.eq_nil_of_length_eq_zero h0
    rw [sxxOf, hx]
    simp
  constructor
  · intro hθ
    unfold calculate_half_life
    rw [if_neg hlen, if_pos hθ]
  · intro hθ
    unfold calculate_half_life
    rw [if_neg hlen, if_neg (not_lt.mpr hθ)]

/-- Claim C6 (witness): on the spread `[0,1,0,1,0]` the regression is
defined with `θ = -2 < 0` and the half-life is `-ln 2 / (-2)`. -/
theorem C6_half_life_witness :
    sxxOf [0, 1, 0, 1, 0] ≠ 0 ∧
    calculate_half_life [0, 1, 0, 1, 0] = .ok (.val (-Real.log 2 / ((-2 : ℚ) : ℝ))) := by
  have hsxx : sxxOf [0, 1, 0, 1, 0] = 4 := by
    norm_num [sxxOf, List.dropLast]
  have hθ : olsTheta [0, 1, 0, 1, 0] = -2 := by
    rw [olsTheta]
    rw [if_neg (by rw [hsxx]; norm_num)]
    rw [hsxx]
    norm_num [List.dropLast, dotProd]
  have h := (C6_half_life [0, 1, 0, 1, 0] (by rw [hsxx]; norm_num)).1 (by rw [hθ]; norm_num)
  rw [hθ] at h
  exact ⟨by rw [hsxx]; norm_num, h⟩

end Algo

namespace Algo

/-! ## Lemmas about the fusion engine -/

theorem sum_map_div (l : List ℚ) (c : ℚ) : (l.map (· / c)).sum = l.sum / c := by
  induction l with
  | nil => simp
  | cons a tl ih => simp [ih, add_div]

theorem normalizeW_sum (w : List ℚ) (h : w.sum ≠ 0) : (normalizeW w).sum = 1 := by
  rw [normalizeW, sum_map_div, div_self h]

theorem hurstFactor_snd (a : AnalysisInput) (ps : List ℚ) (l1 : List (ℚ × ℚ))
    (hh : hurstFactor a ps = .ok l1) :
    l1.map Prod.snd = if a.hurst_exponent.isSome then [(3 : ℚ) / 10] else [] := by
  unfold hurstFactor at hh
  cases hhe : a.hurst_exponent with
  | none =>
    rw [hhe] at hh
    dsimp only at hh
    injection hh with hh
    subst hh
    simp
  | some hv =>
    rw [hhe] at hh
    dsimp only at hh
    cases hs : hurstSignal hv ps with
    | error e => rw [hs] at hh; cases hh
    | ok sg =>
      rw [hs] at hh
      injection hh with hh
      subst hh
      simp

theorem regimeFactor_snd (a : AnalysisInput) (l2 : List (ℚ × ℚ))
    (hr : regimeFactor a = .ok l2) :
    l2.map Prod.snd = if a.regime.isSome then [(1 : ℚ) / 4] else [] := by
  unfold regimeFactor at hr
  cases hre : a.regime with
  | none =>
    rw [hre] at hr
    dsimp only at hr
    injection hr with hr
    subst hr
    simp
  | some rv =>
    rw [hre] at hr
    dsimp only at hr
    cases hs : regimeSignal rv with
    | error e => rw [hs] at hr; cases hr
    | ok sg =>
      rw [hs] at hr
      injection hr with hr
      subst hr
      simp

theorem volFactor_snd (a : AnalysisInput) :
    (volFactor a).map Prod.snd = if a.volatility.isSome then [(3 : ℚ) / 20] else [] := by
  cases hv : a.volatility <;> simp [volFactor, hv]

theorem momFactor_snd (a : AnalysisInput) : (momFactor a).map Prod.snd = [(1 : ℚ) / 5] := rfl

theorem statFactor_snd (a : AnalysisInput) :
    (statFactor a).map Prod.snd = if a.cointegration.isSome then [(1 : ℚ) / 10] else [] := by
  cases hc : a.cointegration <;> simp [statFactor, hc]

theorem gatherFactors_snd (a : AnalysisInput) (ps : List ℚ) (l : List (ℚ × ℚ))
    (hg : gatherFactors a ps = .ok l) :
    l.map Prod.snd = presentWeights a := by
  unfold gatherFactors at hg
  cases hh : hurstFactor a ps with
  | error e => rw [hh] at hg; cases hg
  | ok l1 =>
    rw [hh] at hg
    cases hr : regimeFactor a with
    | error e => rw [hr] at hg; cases hg
    | ok l2 =>
      rw [hr] at hg
      injection hg with hg
      subst hg
      rw [presentWeights]
      simp only [List.map_append]
      rw [hurstFactor_snd a ps l1 hh, regimeFactor_snd a l2 hr, volFactor_snd,
        momFactor_snd, statFactor_snd]

theorem presentWeights_ne_nil (a : AnalysisInput) : presentWeights a ≠ [] := by
  rw [presentWeights]
  split_ifs <;> simp

theorem presentWeights_sum_pos (a : AnalysisInput) : 0 < (presentWeights a).sum := by
  rw [presentWeights]
  split_ifs <;> norm_num

theorem gatherFactors_ne_nil (a : AnalysisInput) (ps : List ℚ) (l : List (ℚ × ℚ))
    (hg : gatherFactors a ps = .ok l) : l ≠ [] := by
  intro hnil
  have h := gatherFactors_snd a ps l hg
  rw [hnil] at h
  exact presentWeights_ne_nil a h.symm

theorem calculate_trading_signal_ok (a : AnalysisInput) (ps : List ℚ) (l : List (ℚ × ℚ))
    (hg : gatherFactors a ps = .ok l) (hne : l ≠ []) :
    calculate_trading_signal a ps =
      .ok ⟨(decideSignal (weightedSignalOf l)).1,
        pyRound 1 (decideSignal (weightedSignalOf l)).2,
        pyRound 3 (weightedSignalOf l), reasoningOf a⟩ := by
  unfold calculate_trading_signal
  rw [hg]
  dsimp only
  rw [if_neg hne]

theorem decideSignal_buy {S : ℚ} (h : 3 / 10 < S) :
    decideSignal S = (.BUY, min (|S| * 100) 100) := by
  rw [decideSignal, if_pos h]

theorem decideSignal_sell {S : ℚ} (h : S < -(3 / 10)) :
    decideSignal S = (.SELL, min (|S| * 100) 100) := by
  rw [decideSignal, if_neg (by linarith), if_pos h]

theorem decideSignal_hold {S : ℚ} (h : |S| ≤ 3 / 10) :
    decideSignal S = (.HOLD, 100 - |S| * 100) := by
  rw [abs_le] at h
  rw [decideSignal, if_neg (by linarith [h.2]), if_neg (by linarith [h.1])]

theorem reasoningOf_ne_insufficient (a : AnalysisInput) :
    reasoningOf a ≠ .insufficientData := by
  unfold reasoningOf
  dsimp only
  split_ifs <;> simp

theorem roundHE_bounds (x : ℚ) (m M : ℤ) (hm : (m : ℚ) ≤ x) (hM : x ≤ (M : ℚ)) :
    m ≤ roundHE x ∧ roundHE x ≤ M := by
  have hfl : m ≤ ⌊x⌋ := Int.le_floor.mpr hm
  have hflM : ⌊x⌋ ≤ M := by
    rw [← Int.floor_intCast (α := ℚ) M]
    exact Int.floor_le_floor hM
  have hflx : (⌊x⌋ : ℚ) ≤ x := Int.floor_le x
  constructor
  · unfold roundHE
    split_ifs <;> omega
  · unfold roundHE
    split_ifs with h1 h2 h3
    · exact hflM
    · have hlt : (⌊x⌋ : ℚ) < (M : ℚ) := by linarith
      have : ⌊x⌋ < M := by exact_mod_cast hlt
      omega
    · exact hflM
    · have hr2 : x - ⌊x⌋ = 1 / 2 := le_antisymm (not_lt.mp h2) (not_lt.mp h1)
      have hlt : (⌊x⌋ : ℚ) < (M : ℚ) := by linarith
      have : ⌊x⌋ < M := by exact_mod_cast hlt
      omega

theorem pyRound1_bounds (x : ℚ) (h70 : 70 ≤ x) (h100 : x ≤ 100) :
    70 ≤ pyRound 1 x ∧ pyRound 1 x ≤ 100 := by
  have hb := roundHE_bounds (x * 10) 700 1000
    (by push_cast; linarith) (by push_cast; linarith)
  rw [pyRound, pow_one]
  have h1 : ((700 : ℤ) : ℚ) ≤ (roundHE (x * 10) : ℚ) := by exact_mod_cast hb.1
  have h2 : ((roundHE (x * 10)) : ℚ) ≤ ((1000 : ℤ) : ℚ) := by exact_mod_cast hb.2
  push_cast at h1 h2
  constructor <;> linarith

theorem roundHE_int (z : ℤ) : roundHE ((z : ℚ)) = z := by
  unfold roundHE
  simp only [Int.floor_intCast, sub_self]
  norm_num

theorem pyRound_eval (nd : ℕ) (x : ℚ) (z : ℤ) (h : x * 10 ^ nd = (z : ℚ)) :
    pyRound nd x = (z : ℚ) / 10 ^ nd := by
  rw [pyRound, h, roundHE_int]

theorem momentumSignal_default : momentumSignal 0 0 = -(1 / 2) := by
  rw [momentumSignal, if_neg (by norm_num), if_pos (by norm_num), if_neg (by norm_num)]

end Algo

namespace Algo

/-! ## Concrete evaluations of the fusion engine -/

theorem gatherFactors_empty : gatherFactors emptyAnalysis [] = .ok [(-(1 / 2), 1 / 5)] := by
  unfold gatherFactors hurstFactor regimeFactor volFactor momFactor statFactor emptyAnalysis
  dsimp only
  norm_num [momentumSignal]

theorem weightedSignalOf_single : weightedSignalOf [(-(1 / 2), 1 / 5)] = -(1 / 2) := by
  norm_num [weightedSignalOf, normalizeW, npAverage, dotProd]

theorem reasoningOf_empty : reasoningOf emptyAnalysis = .parts [.weakSharpe 0] := by
  unfold reasoningOf emptyAnalysis
  dsimp only
  norm_num

theorem gatherFactors_hurst_mid (h : ℚ) (hlo : ¬(h < 9 / 20)) (hhi : ¬(h > 11 / 20))
    (ps : List ℚ) :
    gatherFactors ⟨some h, none, none, none, none, none⟩ ps =
      .ok [(0, 3 / 10), (-(1 / 2), 1 / 5)] := by
  have hhs : hurstSignal h ps = .ok 0 := by
    rw [hurstSignal, if_neg hlo, if_neg hhi]
    rfl
  unfold gatherFactors hurstFactor regimeFactor
  dsimp only
  rw [hhs]
  norm_num [volFactor, momFactor, statFactor, momentumSignal]

theorem weightedSignalOf_pair :
    weightedSignalOf [(0, 3 / 10), (-(1 / 2), 1 / 5)] = -(1 / 5) := by
  norm_num [weightedSignalOf, normalizeW, npAverage, dotProd]

theorem abs_neg_fifth : |(-(1 / 5) : ℚ)| = 1 / 5 := by
  rw [abs_neg, abs_of_nonneg (by norm_num : (0 : ℚ) ≤ 1 / 5)]

/-- Claim C1 (counterexample): with every factor absent from the input,
the momentum factor still contributes (defaults `price_change = 0`,
`sharpe = 0` give signal `-0.5` with weight `0.20`), so the fusion
engine returns SELL with confidence 50 — not the claimed
`{HOLD, confidence 0, signal_strength 0}`. -/
theorem C1_zero_factor_counterexample :
    calculate_trading_signal emptyAnalysis [] =
      .ok ⟨.SELL, 50, -(1 / 2), .parts [.weakSharpe 0]⟩ ∧
    Rec.SELL ≠ Rec.HOLD ∧ (50 : ℚ) ≠ 0 ∧ (-(1 / 2) : ℚ) ≠ 0 := by
  have hcalc := calculate_trading_signal_ok emptyAnalysis [] _ gatherFactors_empty (by simp)
  rw [weightedSignalOf_single, decideSignal_sell (by norm_num : (-(1 / 2) : ℚ) < -(3 / 10)),
    reasoningOf_empty] at hcalc
  dsimp only at hcalc
  rw [show |(-(1 / 2) : ℚ)| = 1 / 2 by
      rw [abs_neg, abs_of_nonneg (by norm_num : (0 : ℚ) ≤ 1 / 2)],
    show min ((1 / 2 : ℚ) * 100) 100 = 50 by norm_num,
    show pyRound 1 (50 : ℚ) = 50 by
      rw [pyRound_eval 1 50 500 (by norm_num)]; norm_num,
    show pyRound 3 (-(1 / 2) : ℚ) = -(1 / 2) by
      rw [pyRound_eval 3 (-(1 / 2)) (-500) (by norm_num)]; norm_num] at hcalc
  exact ⟨hcalc, by simp, by norm_num, by norm_num⟩

/-- Claim C1 (amended): the Hurst, regime, volatility and stationarity
factors contribute neither a signal nor a weight when absent, but the
momentum/Sharpe factor always contributes (weight 0.20, with defaulted
inputs when absent); the weights of the contributing factors are
renormalized to sum to 1 before the weighted average; consequently the
signal list is never empty and the insufficient-data
`{HOLD, confidence 0}` branch is unreachable. -/
theorem C1_fusion_amended (a : AnalysisInput) (ps : List ℚ) (l : List (ℚ × ℚ))
    (hg : gatherFactors a ps = .ok l) :
    l.map Prod.snd = presentWeights a ∧
    l ≠ [] ∧
    (normalizeW (l.map Prod.snd)).sum = 1 ∧
    ∀ r, calculate_trading_signal a ps = .ok r → r.reasoning ≠ .insufficientData := by
  have hsnd := gatherFactors_snd a ps l hg
  have hne := gatherFactors_ne_nil a ps l hg
  refine ⟨hsnd, hne, ?_, ?_⟩
  · rw [hsnd]
    exact normalizeW_sum _ (ne_of_gt (presentWeights_sum_pos a))
  · intro r hr
    rw [calculate_trading_signal_ok a ps l hg hne] at hr
    injection hr with hr
    rw [← hr]
    exact reasoningOf_ne_insufficient a

theorem gatherFactors_mixed :
    gatherFactors mixedAnalysis [] = .ok [(-(1 / 2), 3 / 20), (-(1 / 2), 1 / 5), (0, 1 / 10)] := by
  unfold gatherFactors hurstFactor regimeFactor mixedAnalysis
  dsimp only
  norm_num [volFactor, momFactor, statFactor, momentumSignal, volSignal, statSignal]

/-- Claim C1 (witness): the amended factor-presence law at an input with
only the volatility and stationarity factors present: the gathered
weights are exactly `[0.15, 0.20, 0.10]` (volatility, the always-present
momentum, stationarity) and they renormalize to sum 1. -/
theorem C1_fusion_witness :
    ([(-(1 / 2), 3 / 20), (-(1 / 2), 1 / 5), (0, 1 / 10)] : List (ℚ × ℚ)).map Prod.snd =
      presentWeights mixedAnalysis ∧
    ([(-(1 / 2), 3 / 20), (-(1 / 2), 1 / 5), (0, 1 / 10)] : List (ℚ × ℚ)) ≠ [] ∧
    (normalizeW (([(-(1 / 2), 3 / 20), (-(1 / 2), 1 / 5), (0, 1 / 10)] :
      List (ℚ × ℚ)).map Prod.snd)).sum = 1 ∧
    ∀ r, calculate_trading_signal mixedAnalysis [] = .ok r →
      r.reasoning ≠ .insufficientData :=
  C1_fusion_amended mixedAnalysis [] _ gatherFactors_mixed

end Algo

namespace Algo

/-- Claim C7: for every non-empty gathered signal set, with `S` the
weighted average under the renormalized weights,
`calculate_trading_signal` returns BUY with raw confidence
`min(|S|·100, 100)` when `S > 0.3`, SELL with the same formula when
`S < -0.3`, and otherwise HOLD with raw confidence `100 - |S|·100`; the
returned record carries that confidence rounded to one decimal (the
`round(confidence, 1)` at the return site). -/
theorem C7_decision_rule (a : AnalysisInput) (ps : List ℚ) (l : List (ℚ × ℚ))
    (hg : gatherFactors a ps = .ok l) (hne : l ≠ []) :
    ∃ r, calculate_trading_signal a ps = .ok r ∧
      ((3 / 10 < weightedSignalOf l →
        r.recommendation = .BUY ∧
        (decideSignal (weightedSignalOf l)).2 = min (|weightedSignalOf l| * 100) 100 ∧
        r.confidence = pyRound 1 (min (|weightedSignalOf l| * 100) 100)) ∧
      (weightedSignalOf l < -(3 / 10) →
        r.recommendation = .SELL ∧
        (decideSignal (weightedSignalOf l)).2 = min (|weightedSignalOf l| * 100) 100 ∧
        r.confidence = pyRound 1 (min (|weightedSignalOf l| * 100) 100)) ∧
      (|weightedSignalOf l| ≤ 3 / 10 →
        r.recommendation = .HOLD ∧
        (decideSignal (weightedSignalOf l)).2 = 100 - |weightedSignalOf l| * 100 ∧
        r.confidence = pyRound 1 (100 - |weightedSignalOf l| * 100))) := by
  refine ⟨_, calculate_trading_signal_ok a ps l hg hne, ?_, ?_, ?_⟩
  · intro h
    simp [decideSignal_buy h]
  · intro h
    simp [decideSignal_sell h]
  · intro h
    simp [decideSignal_hold h]

/-- Claim C7 (witness): with only the Hurst factor present at
`H = 0.48` the weighted signal is `-1/5`, inside the HOLD band, and the
returned record is HOLD with confidence `round(100 - 20, 1)`. -/
theorem C7_decision_rule_witness :
    ∃ r, calculate_trading_signal hurstMid48Analysis [] = .ok r ∧
      r.recommendation = .HOLD ∧
      r.confidence = pyRound 1 (100 - |(-(1 / 5) : ℚ)| * 100) := by
  have hg : gatherFactors hurstMid48Analysis [] = .ok [(0, 3 / 10), (-(1 / 2), 1 / 5)] :=
    gatherFactors_hurst_mid (12 / 25) (by norm_num) (by norm_num) []
  obtain ⟨r, hr, hb⟩ := C7_decision_rule hurstMid48Analysis [] _ hg (by simp)
  rw [weightedSignalOf_pair] at hb
  have habs : |(-(1 / 5) : ℚ)| ≤ 3 / 10 := by rw [abs_neg_fifth]; norm_num
  obtain ⟨h1, _, h3⟩ := hb.2.2 habs
  exact ⟨r, hr, h1, h3⟩

/-- Claim C9: whenever `calculate_trading_signal` returns HOLD with at
least one gathered signal, the reported confidence lies in `[70, 100]`:
the HOLD branch requires `|S| ≤ 0.3`, sets confidence
`100 - |S|·100 ∈ [70, 100]`, and rounding to one decimal stays inside
the interval. -/
theorem C9_hold_confidence (a : AnalysisInput) (ps : List ℚ) (l : List (ℚ × ℚ))
    (r : TradingSignal) (hg : gatherFactors a ps = .ok l) (hne : l ≠ [])
    (hr : calculate_trading_signal a ps = .ok r) (hH : r.recommendation = .HOLD) :
    70 ≤ r.confidence ∧ r.confidence ≤ 100 := by
  rw [calculate_trading_signal_ok a ps l hg hne] at hr
  injection hr with hr
  subst hr
  dsimp only at hH ⊢
  by_cases h1 : 3 / 10 < weightedSignalOf l
  · rw [decideSignal_buy h1] at hH
    exact absurd hH (by simp)
  · by_cases h2 : weightedSignalOf l < -(3 / 10)
    · rw [decideSignal_sell h2] at hH
      exact absurd hH (by simp)
    · have habs : |weightedSignalOf l| ≤ 3 / 10 :=
        abs_le.mpr ⟨by linarith, by linarith⟩
      rw [decideSignal_hold habs]
      dsimp only
      have h70 : (70 : ℚ) ≤ 100 - |weightedSignalOf l| * 100 := by linarith
      have h100 : 100 - |weightedSignalOf l| * 100 ≤ 100 := by
        have h0 := abs_nonneg (weightedSignalOf l)
        linarith
      exact pyRound1_bounds _ h70 h100

/-- Claim C9 (witness): with only the Hurst factor present at
`H = 1/2` the returned recommendation is HOLD and its confidence lies
in `[70, 100]` (it is `round(80, 1)`). -/
theorem C9_hold_confidence_witness :
    ∃ r, calculate_trading_signal hurstMidAnalysis [] = .ok r ∧
      70 ≤ r.confidence ∧ r.confidence ≤ 100 := by
  have hg : gatherFactors hurstMidAnalysis [] = .ok [(0, 3 / 10), (-(1 / 2), 1 / 5)] :=
    gatherFactors_hurst_mid (1 / 2) (by norm_num) (by norm_num) []
  have hne : ([(0, 3 / 10), (-(1 / 2), 1 / 5)] : List (ℚ × ℚ)) ≠ [] := by simp
  have hr := calculate_trading_signal_ok hurstMidAnalysis [] _ hg hne
  have habs : |weightedSignalOf [(0, 3 / 10), (-(1 / 2), 1 / 5)]| ≤ 3 / 10 := by
    rw [weightedSignalOf_pair, abs_neg_fifth]
    norm_num
  have hH : (⟨(decideSignal (weightedSignalOf [(0, 3 / 10), (-(1 / 2), 1 / 5)])).1,
      pyRound 1 (decideSignal (weightedSignalOf [(0, 3 / 10), (-(1 / 2), 1 / 5)])).2,
      pyRound 3 (weightedSignalOf [(0, 3 / 10), (-(1 / 2), 1 / 5)]),
      reasoningOf hurstMidAnalysis⟩ : TradingSignal).recommendation = .HOLD := by
    dsimp only
    rw [decideSignal_hold habs]
  exact ⟨_, hr, C9_hold_confidence hurstMidAnalysis [] _ _ hg hne hr hH⟩

/-- Claim C10: the regime-factor evaluation is total only under the
precondition that `current_regime` is a valid (Python) index into the
`regime_probabilities` list (default `[0, 0, 0]`): a valid index always
yields a signal, while the concrete input with `current_regime = 5` and
defaulted probabilities makes the posterior lookup raise `IndexError`,
reaching the function's error branch. -/
theorem C10_regime_bounds :
    (∀ r : RegimeInput,
      -(((r.regime_probabilities.getD [0, 0, 0]).length : ℤ)) ≤ r.current_regime →
      r.current_regime < ((r.regime_probabilities.getD [0, 0, 0]).length : ℤ) →
      ∃ q, regimeSignal r = .ok q) ∧
    calculate_trading_signal badRegimeAnalysis [] = .error "IndexError" := by
  constructor
  · intro r h1 h2
    have hex : ∃ q, pyIdx (r.regime_probabilities.getD [0, 0, 0]) r.current_regime = .ok q := by
      unfold pyIdx
      by_cases h0 : 0 ≤ r.current_regime
      · rw [if_pos ⟨h0, h2⟩]
        exact ⟨_, rfl⟩
      · push_neg at h0
        rw [if_neg (fun hc => absurd hc.1 (not_le.mpr h0)), if_pos ⟨h1, h0⟩]
        exact ⟨_, rfl⟩
    obtain ⟨q, hq⟩ := hex
    unfold regimeSignal
    dsimp only
    rw [hq]
    exact ⟨_, rfl⟩
  · rfl

/-- Claim C10 (witness): a valid index (`current_regime = 0` against the
defaulted three-element probability list) makes the regime factor
evaluate without error. -/
theorem C10_regime_bounds_witness :
    (-(((([0, 0, 0] : List ℚ)).length : ℤ)) ≤ 0 ∧
      (0 : ℤ) < ((([0, 0, 0] : List ℚ)).length : ℤ)) ∧
    ∃ q, regimeSignal ⟨0, [], none⟩ = .ok q := by
  refine ⟨⟨by simp, by simp⟩, ?_⟩
  exact C10_regime_bounds.1 ⟨0, [], none⟩ (by simp) (by simp)

end Algo
